import Mathlib

set_option maxHeartbeats 1000000

/- Shallow embedding of the hybrid retrieval engine implemented in
app/services/search.py (class HybridSearcher) and the document store of
app/services/enhanced_rag.py (class DocumentStore).

Modelling conventions:
- machine floats are modelled as exact rationals; where the code takes a
  natural logarithm (`np.log`) the real-valued score only appears inside
  theorem statements, written with `Real.log`;
- the embedding backend (`HuggingFaceEmbeddings.embed_query`) is a black-box
  dependency, modelled as an explicit function parameter `f : String → List ℚ`
  (and, where failure matters, `String → Except Unit (List ℚ)`);
- wall-clock time (`datetime.now()`) is threaded as an explicit rational
  parameter `now`, in hours, so the 24-hour TTL is the constant 24;
- Python dicts are association lists that preserve insertion order;
  assignment to an existing key replaces the value in place. -/

/-- Values stored in a metadata dict (the shapes the code actually stores:
strings such as sources and ISO timestamps, and integer document ids). -/
inductive MVal where
  | str : String → MVal
  | nat : Nat → MVal
deriving DecidableEq

/-- A Python metadata dict, as an insertion-ordered association list. -/
abbrev Metadata := List (String × MVal)

/-- Python dict assignment `d[k] = v`: replaces the value in place when the
key is present (insertion order preserved), appends a new entry otherwise. -/
def dictSet {β : Type} (d : List (String × β)) (k : String) (v : β) :
    List (String × β) :=
  if (d.lookup k).isSome then d.map fun p => if p.1 = k then (k, v) else p
  else d ++ [(k, v)]

/- SearchResult in the code is one class with a float score; its three uses
carry floats of different provenance, so they are modelled by three record
types.  A fused (RRF) result's score is a finite sum of rationals 1/(rank+60). -/

/-- SearchResult as produced by hybrid_search (RRF-fused score). -/
structure FusedResult where
  content : String
  score : ℚ
  metadata : Metadata
deriving DecidableEq

/-- SearchResult as produced by semantic_search (score = 1/(1+distance)). -/
structure SemResult where
  content : String
  score : ℚ
  metadata : Metadata
deriving DecidableEq

/-- SearchResult as produced by lexical_search.  The float score
`overlap / (len(query_terms) * np.log(1 + len(doc_terms)))` is represented by
the data defining it: the overlap `|Q ∩ D|`, the document vocabulary size
`|D|`, together with the corpus position `idx` from `enumerate(documents)`. -/
structure LexResult where
  content : String
  overlap : ℕ
  dsize : ℕ
  idx : ℕ
  metadata : Metadata
deriving DecidableEq

/-- State of a HybridSearcher instance.  `index` is the FAISS IndexFlatL2
(None until the first non-empty add), kept as its list of stored rows;
`cache` is the result cache keyed by the string f"{query}_{k}" and holding
(timestamp, results); `lru` is the state of the functools.lru_cache wrapped
around get_embedding, most recently used entry first. -/
structure Searcher where
  index : Option (List (List ℚ))
  documents : List String
  document_metadata : List Metadata
  cache : List (String × (ℚ × List FusedResult))
  lru : List (String × List ℚ)

/-- A freshly constructed HybridSearcher. -/
def initSearcher : Searcher :=
  { index := none, documents := [], document_metadata := [], cache := [], lru := [] }

/-- maxsize of the lru_cache decorating get_embedding. -/
def lruMaxsize : ℕ := 1000

/-- get_embedding: functools.lru_cache(maxsize=1000) wrapped around
`self.embeddings.embed_query`, modelled from lru_cache's documented
semantics.  On a hit the stored vector is returned and its entry moves to the
most-recently-used position; on a miss the function is invoked and the result
inserted, evicting the least recently used entry once the bound is exceeded.
The Bool is instrumentation recording whether the underlying embedding
computation was invoked (true exactly on a miss). -/
def getEmbedding (f : String → List ℚ) (lru : List (String × List ℚ))
    (t : String) : List ℚ × List (String × List ℚ) × Bool :=
  match lru.lookup t with
  | some v => (v, (t, v) :: lru.eraseP (fun p => p.1 == t), false)
  | none =>
    let v := f t
    let l1 := (t, v) :: lru
    (v, if lruMaxsize < l1.length then l1.dropLast else l1, true)

/-- get_embedding when the underlying embedding computation may fail
(exceptions modelled as `Except.error`): lru_cache propagates the exception
and stores nothing. -/
def getEmbeddingE (f : String → Except Unit (List ℚ))
    (lru : List (String × List ℚ)) (t : String) :
    Except Unit (List ℚ) × List (String × List ℚ) × Bool :=
  match lru.lookup t with
  | some v => (.ok v, (t, v) :: lru.eraseP (fun p => p.1 == t), false)
  | none =>
    match f t with
    | .error e => (.error e, lru, true)
    | .ok v =>
      let l1 := (t, v) :: lru
      (.ok v, if lruMaxsize < l1.length then l1.dropLast else l1, true)

/-- A concrete embedding-cache state holding exactly lruMaxsize entries with
pairwise distinct keys (the key of entry i is the string of i letters a),
used to exhibit eviction at the capacity bound on a concrete input. -/
def lruFull : List (String × List ℚ) :=
  (List.range lruMaxsize).map fun i => (String.mk (List.replicate i 'a'), [])

/-- A word character in the sense of the regex \w: alphanumeric or
underscore (the ASCII range; the inputs of interest are ASCII). -/
def isWordChar (c : Char) : Bool := c.isAlphanum || c == '_'

/-- Maximal runs of word characters (the matches of `re.findall(r'\w+', ·)`);
`acc` accumulates the current run in reverse. -/
def wordRuns : List Char → List Char → List (List Char)
  | [], acc => if acc.isEmpty then [] else [acc.reverse]
  | c :: cs, acc =>
    if isWordChar c then wordRuns cs (c :: acc)
    else if acc.isEmpty then wordRuns cs [] else acc.reverse :: wordRuns cs []

/-- `_tokenize` applied to lowercased text: the code lowercases before calling
`_tokenize` (`self._tokenize(query.lower())`, `self._tokenize(doc.lower())`),
so the lowering is folded into the tokenizer here, as a per-character map
(identical to str.lower on the ASCII range). -/
def tokenize (s : String) : List String :=
  (wordRuns (s.data.map Char.toLower) []).map fun cs => String.mk cs

/-- Comparison used to model the FAISS k-nearest-neighbour ordering:
ascending squared L2 distance; FAISS leaves the order of exactly equal
distances unspecified, modelled as ascending row id. -/
def distLe (a b : ℚ × Int) : Prop := a.1 < b.1 ∨ (a.1 = b.1 ∧ a.2 ≤ b.2)

instance : DecidableRel distLe := fun a b => by unfold distLe; exact inferInstance

instance : IsTotal (ℚ × Int) distLe := by
  constructor
  intro a b
  rcases lt_trichotomy a.1 b.1 with h | h | h
  · exact Or.inl (Or.inl h)
  · rcases le_total a.2 b.2 with h2 | h2
    · exact Or.inl (Or.inr ⟨h, h2⟩)
    · exact Or.inr (Or.inr ⟨h.symm, h2⟩)
  · exact Or.inr (Or.inl h)

instance : IsTrans (ℚ × Int) distLe := by
  constructor
  intro a b c hab hbc
  rcases hab with h1 | ⟨h1, h1i⟩
  · rcases hbc with h2 | ⟨h2, _⟩
    · exact Or.inl (h1.trans h2)
    · exact Or.inl (h2 ▸ h1)
  · rcases hbc with h2 | ⟨h2, h2i⟩
    · exact Or.inl (h1 ▸ h2)
    · exact Or.inr ⟨h1.trans h2, h1i.trans h2i⟩

/-- The sentinel distance FAISS reports for padded result slots (a huge
float; its exact value is irrelevant to every claim below, only the padded
id -1 matters). -/
def fltMax : ℚ := 2 ^ 128 - 2 ^ 104

/-- Squared Euclidean distance between two rows. -/
def sqDist (u v : List ℚ) : ℚ := ((u.zip v).map fun p => (p.1 - p.2) ^ 2).sum

/-- faiss.IndexFlatL2.search for a single query vector: the k nearest stored
rows as (squared distance, row id) pairs, ascending by distance; when fewer
than k rows exist, the remaining slots are padded with id -1 and a sentinel
distance (documented FAISS behaviour). -/
def faissSearch (rows : List (List ℚ)) (q : List ℚ) (k : ℕ) : List (ℚ × Int) :=
  let scored := rows.enum.map fun p => (sqDist q p.2, (p.1 : Int))
  let top := (scored.insertionSort distLe).take k
  top ++ List.replicate (k - top.length) (fltMax, -1)

/-- Python list indexing `l[i]` with its negative-index semantics: an index
i < 0 reads `l[len l + i]`; an access that is still out of range raises
IndexError, modelled as `none`. -/
def pyGet {α : Type} (l : List α) (i : Int) : Option α :=
  let j := if i < 0 then (l.length : Int) + i else i
  if 0 ≤ j then l.get? j.toNat else none

/-- HybridSearcher.semantic_search.  Returns `[]` when the index is None
(`if not self.index`).  Otherwise embeds the query (through the lru cache),
searches the index, and keeps every (score, idx) pair passing the check
`idx < len(self.documents)` — note this check does not exclude FAISS's
padding id -1, which Python then resolves by negative indexing.  The
unreachable `none` branches model Python raising IndexError; they never fire
for states satisfying the lock-step invariant. -/
def semanticSearch (f : String → List ℚ) (st : Searcher) (query : String)
    (k : ℕ) : List SemResult × Searcher :=
  match st.index with
  | none => ([], st)
  | some rows =>
    let e := getEmbedding f st.lru query
    let di := faissSearch rows e.1 k
    let results := di.filterMap fun p =>
      if p.2 < (st.documents.length : Int) then
        match pyGet st.documents p.2, pyGet st.document_metadata p.2 with
        | some doc, some md => some ⟨doc, 1 / (1 + p.1), md⟩
        | _, _ => none
      else none
    (results, { st with lru := e.2.1 })

/-- Comparison used to model the lexical sort
`sorted(results, key=lambda x: x.score, reverse=True)`.  Python's sort is
stable, so it coincides with the lexicographic order (score descending,
corpus position ascending), positions being pairwise distinct.  With the
query-term count q > 0 fixed, comparing the scores
o / (q * ln(1 + d)) reduces, through monotonicity of ln, to comparing the
natural numbers (1 + d₂)^o₁ and (1 + d₁)^o₂, which keeps the relation
decidable. -/
def lexLe (a b : LexResult) : Prop :=
  (1 + b.dsize) ^ a.overlap > (1 + a.dsize) ^ b.overlap ∨
    ((1 + b.dsize) ^ a.overlap = (1 + a.dsize) ^ b.overlap ∧ a.idx ≤ b.idx)

instance : DecidableRel lexLe := fun a b => by unfold lexLe; exact inferInstance

/-- Loop body of lexical_search for one `(idx, doc)` pair of
`enumerate(documents)`: tokenize the document, compute the overlap with the
query token set, and keep the document only when the overlap is positive.
`docMeta` is self.document_metadata (the code guards
`idx < len(self.document_metadata)` and falls back to the empty dict). -/
def lexEntry (docMeta : List Metadata) (qset : Finset String) (p : ℕ × String) :
    Option LexResult :=
  let dset := (tokenize p.2).toFinset
  let ov := (qset ∩ dset).card
  if 0 < ov then some ⟨p.2, ov, dset.card, p.1, ((docMeta.get? p.1).getD [])⟩
  else none

/-- HybridSearcher.lexical_search: tokenization of query and documents,
set overlap scoring with exclusion of zero-overlap documents, stable sort by
score descending, truncation to k. -/
def lexicalSearch (docMeta : List Metadata) (query : String)
    (documents : List String) (k : ℕ) : List LexResult :=
  ((documents.enum.filterMap
    (lexEntry docMeta (tokenize query).toFinset)).insertionSort lexLe).take k

/-- Comparison for the final fused sort
`final_results.sort(key=lambda x: x.score, reverse=True)`: score descending
(non-strict, so the stable sort keeps insertion order on ties). -/
def fusedLe (a b : FusedResult) : Prop := b.score ≤ a.score

instance : DecidableRel fusedLe := fun a b => by unfold fusedLe; exact inferInstance

instance : IsTotal FusedResult fusedLe := ⟨fun a b => le_total b.score a.score⟩

instance : IsTrans FusedResult fusedLe :=
  ⟨fun _ _ _ hab hbc => le_trans hbc hab⟩

/-- First RRF loop of hybrid_search: for each semantic result, in rank order,
`all_results[result.content] = {'score': 1/(rank+60), 'metadata': ...}`
(plain assignment: a repeated content is overwritten). -/
def rrfSemFold (sem : List SemResult) : List (String × (ℚ × Metadata)) :=
  sem.enum.foldl
    (fun d p => dictSet d p.2.content (1 / ((p.1 : ℚ) + 60), p.2.metadata)) []

/-- Second RRF loop of hybrid_search: for each lexical result, in rank order,
add 1/(rank+60) to an existing entry's score (keeping its metadata), or
insert a new entry. -/
def rrfLexFold (d0 : List (String × (ℚ × Metadata))) (lex : List LexResult) :
    List (String × (ℚ × Metadata)) :=
  lex.enum.foldl
    (fun d p =>
      match d.lookup p.2.content with
      | some sm => dictSet d p.2.content (sm.1 + 1 / ((p.1 : ℚ) + 60), sm.2)
      | none => dictSet d p.2.content (1 / ((p.1 : ℚ) + 60), p.2.metadata))
    d0

/-- Body of hybrid_search past the cache check: run both searches, fuse by
RRF, sort by fused score descending (stable), truncate to k. -/
def hybridCompute (f : String → List ℚ) (st : Searcher) (query : String)
    (k : ℕ) : List FusedResult × Searcher :=
  let s := semanticSearch f st query k
  let lex := lexicalSearch s.2.document_metadata query s.2.documents k
  let d := rrfLexFold (rrfSemFold s.1) lex
  let final := (d.map fun p => FusedResult.mk p.1 p.2.1 p.2.2).insertionSort fusedLe
  (final.take k, s.2)

/-- The result-cache key f"{query}_{k}". -/
def cacheKey (query : String) (k : ℕ) : String := query ++ "_" ++ toString k

/-- The result-cache TTL, timedelta(hours=24), with time measured in hours. -/
def cacheTtl : ℚ := 24

/-- HybridSearcher.hybrid_search: serve a cached entry younger than the TTL,
otherwise compute, store under the key with the current timestamp, return. -/
def hybridSearch (f : String → List ℚ) (now : ℚ) (st : Searcher)
    (query : String) (k : ℕ) : List FusedResult × Searcher :=
  match st.cache.lookup (cacheKey query k) with
  | some tr =>
    if now - tr.1 < cacheTtl then (tr.2, st)
    else
      let c := hybridCompute f st query k
      (c.1, { c.2 with cache := dictSet c.2.cache (cacheKey query k) (now, c.1) })
  | none =>
    let c := hybridCompute f st query k
    (c.1, { c.2 with cache := dictSet c.2.cache (cacheKey query k) (now, c.1) })

/-- HybridSearcher.add_documents: early return on an empty list; default
metadata `[{}] * len(documents)`; embed every document through the lru cache;
create the index on first use; append rows, contents and metadata.  (FAISS
dimension bookkeeping is not modelled; it affects no claim below.) -/
def addDocuments (f : String → List ℚ) (st : Searcher)
    (documents : List String) (metadata : Option (List Metadata)) : Searcher :=
  if documents.isEmpty then st
  else
    let md := metadata.getD (List.replicate documents.length [])
    let emb := documents.foldl
      (fun acc doc =>
        let e := getEmbedding f acc.2 doc
        (acc.1 ++ [e.1], e.2.1))
      (([] : List (List ℚ)), st.lru)
    let rows := (match st.index with | none => [] | some rs => rs) ++ emb.1
    { st with
      index := some rows
      documents := st.documents ++ documents
      document_metadata := st.document_metadata ++ md
      lru := emb.2 }

/-- HybridSearcher.clear_cache: `self.cache.clear()` and
`self.get_embedding.cache_clear()`. -/
def clearCache (st : Searcher) : Searcher := { st with cache := [], lru := [] }

/-- State of a DocumentStore instance: its HybridSearcher plus the
document_metadata dict keyed by doc_id. -/
structure DocStore where
  searcher : Searcher
  document_metadata : List (ℕ × Metadata)

/-- A freshly constructed DocumentStore. -/
def initDocStore : DocStore := { searcher := initSearcher, document_metadata := [] }

/-- DocumentStore.add_document: doc_id = len(self.document_metadata); the
stored metadata is the caller's dict enriched with
'added_at': datetime.now().isoformat() (threaded as the string `ts`) and
'doc_id': doc_id; content and enriched metadata are forwarded to
HybridSearcher.add_documents.  The Python function body has no return
statement, so the call returns None, modelled as `none`. -/
def addDocument (f : String → List ℚ) (st : DocStore) (content : String)
    (metadata : Metadata) (ts : String) : DocStore × Option ℕ :=
  let docId := st.document_metadata.length
  let enriched := dictSet (dictSet metadata "added_at" (MVal.str ts)) "doc_id"
    (MVal.nat docId)
  ({ searcher := addDocuments f st.searcher [content] (some [enriched])
     document_metadata := st.document_metadata ++ [(docId, enriched)] }, none)

/-- A sequence of DocumentStore.add_document calls, each a
(content, metadata, timestamp) triple. -/
def runAdds (f : String → List ℚ) (st : DocStore)
    (calls : List (String × Metadata × String)) : DocStore :=
  calls.foldl (fun s c => (addDocument f s c.1 c.2.1 c.2.2).1) st

/-- The lock-step invariant of a searcher state: the metadata list has the
same length as the documents list, the vector index (once created) holds
exactly the embedding of document i at row i, and every cached embedding is
the embedding of its key. -/
def SearcherInv (f : String → List ℚ) (st : Searcher) : Prop :=
  st.document_metadata.length = st.documents.length ∧
  (match st.index with
   | none => st.documents = []
   | some rows => rows = st.documents.map f) ∧
  ∀ p ∈ st.lru, p.2 = f p.1

/- Association-list (Python dict) lemmas shared by several claims. -/

theorem lookup_cons {β : Type} (p : String × β) (ps : List (String × β))
    (k : String) :
    (p :: ps).lookup k = if k = p.1 then some p.2 else ps.lookup k := by
  by_cases h : k = p.1
  · simp [List.lookup, h]
  · simp [List.lookup, h, beq_eq_false_iff_ne.mpr h]

theorem lookup_eq_none_iff {β : Type} (d : List (String × β)) (k : String) :
    d.lookup k = none ↔ k ∉ d.map Prod.fst := by
  induction d with
  | nil => simp
  | cons p ps ih =>
    rw [lookup_cons]
    by_cases h : k = p.1 <;> simp [h, ih]

theorem lookup_append {β : Type} (d1 d2 : List (String × β)) (k : String) :
    (d1 ++ d2).lookup k =
      if (d1.lookup k).isSome then d1.lookup k else d2.lookup k := by
  induction d1 with
  | nil => simp
  | cons p ps ih =>
    rw [List.cons_append, lookup_cons, lookup_cons]
    by_cases h : k = p.1
    · simp [h]
    · simp only [if_neg h]
      exact ih

theorem lookup_map_replace {β : Type} (d : List (String × β)) (k : String)
    (v : β) (h : (d.lookup k).isSome) :
    (d.map fun p => if p.1 = k then (k, v) else p).lookup k = some v := by
  induction d with
  | nil => simp [List.lookup] at h
  | cons p ps ih =>
    rw [lookup_cons] at h
    rw [List.map_cons, lookup_cons]
    by_cases hp : p.1 = k
    · simp [hp]
    · have hk : ¬ k = p.1 := fun hh => hp hh.symm
      rw [if_neg hk] at h
      rw [if_neg hp, if_neg hk]
      exact ih h

theorem lookup_map_replace_ne {β : Type} (d : List (String × β)) (k k' : String)
    (v : β) (h : k' ≠ k) :
    (d.map fun p => if p.1 = k then (k, v) else p).lookup k' = d.lookup k' := by
  induction d with
  | nil => simp
  | cons p ps ih =>
    rw [List.map_cons, lookup_cons, lookup_cons]
    by_cases hp : p.1 = k
    · rw [if_pos hp]
      rw [if_neg h, if_neg (hp ▸ h)]
      exact ih
    · rw [if_neg hp]
      by_cases hk : k' = p.1
      · simp [hk]
      · rw [if_neg hk, if_neg hk]
        exact ih

theorem dictSet_lookup_self {β : Type} (d : List (String × β)) (k : String)
    (v : β) : (dictSet d k v).lookup k = some v := by
  unfold dictSet
  by_cases h : (d.lookup k).isSome
  · rw [if_pos h]
    exact lookup_map_replace d k v h
  · rw [if_neg h, lookup_append]
    have hnone : d.lookup k = none := by
      cases heq : d.lookup k
      · rfl
      · rw [heq] at h; simp at h
    simp [hnone, lookup_cons]

theorem dictSet_lookup_ne {β : Type} (d : List (String × β)) (k k' : String)
    (v : β) (h : k' ≠ k) : (dictSet d k v).lookup k' = d.lookup k' := by
  unfold dictSet
  by_cases hs : (d.lookup k).isSome
  · rw [if_pos hs]
    exact lookup_map_replace_ne d k k' v h
  · rw [if_neg hs, lookup_append]
    cases heq : d.lookup k'
    · simp [heq, lookup_cons, h]
    · simp [heq]

theorem hybridCompute_cache (f : String → List ℚ) (st : Searcher) (q : String)
    (k : ℕ) : (hybridCompute f st q k).2.cache = st.cache := by
  unfold hybridCompute semanticSearch
  cases st.index <;> simp

theorem hybridCompute_docs (f : String → List ℚ) (st : Searcher) (q : String)
    (k : ℕ) : (hybridCompute f st q k).2.documents = st.documents ∧
      (hybridCompute f st q k).2.document_metadata = st.document_metadata := by
  unfold hybridCompute semanticSearch
  cases st.index <;> simp

/-- C10: clear_cache empties both the result cache and the embedding
memoization cache — so every subsequent result-cache or embedding-cache
lookup misses and recomputes — while leaving the documents list, the
metadata list and the vector index unchanged. -/
theorem clearCache_spec (st : Searcher) :
    (clearCache st).cache = [] ∧ (clearCache st).lru = [] ∧
    (clearCache st).documents = st.documents ∧
    (clearCache st).document_metadata = st.document_metadata ∧
    (clearCache st).index = st.index ∧
    (∀ q k, ((clearCache st).cache.lookup (cacheKey q k)) = none) ∧
    (∀ t, ((clearCache st).lru.lookup t) = none) :=
  ⟨rfl, rfl, rfl, rfl, rfl, fun _ _ => rfl, fun _ => rfl⟩

/-- C9 counterexample: add_documents with an empty document list does not
fail with an error — `if not documents: return` makes it return normally,
the state unchanged, refuting the claimed fail-fast behaviour at the
concrete input (fresh searcher, empty list, no metadata). -/
theorem addDocuments_empty_concrete :
    addDocuments (fun _ => [(0 : ℚ)]) initSearcher [] none = initSearcher := rfl

/-- C9 (amended): calling add_documents with an empty document list is a
silent no-op: it returns without error and leaves the whole searcher state —
index included — unchanged (uncorrupted). -/
theorem addDocuments_empty_noop (f : String → List ℚ) (st : Searcher)
    (md : Option (List Metadata)) : addDocuments f st [] md = st := rfl

/-- C3: result caching of hybrid_search.  (1) A call whose cache entry under
the key f"{query}_{k}" is younger than the 24-hour TTL returns the cached
list itself (identical content, order and scores) and leaves the state
untouched (nothing is recomputed).  (2) A call with no fresh entry — absent
key or an entry at least TTL old — computes the result from the current
store, returns it, and stores it under the key with the current timestamp;
a stale entry is never served.  (3) After such a recomputation, a repeat
call within the TTL returns the identical list from the cache. -/
theorem hybridSearch_cache_spec (f : String → List ℚ) (now : ℚ) (st : Searcher)
    (q : String) (k : ℕ) :
    (∀ t res, st.cache.lookup (cacheKey q k) = some (t, res) →
      now - t < cacheTtl → hybridSearch f now st q k = (res, st)) ∧
    ((∀ t res, st.cache.lookup (cacheKey q k) = some (t, res) →
        ¬(now - t < cacheTtl)) →
      (hybridSearch f now st q k).1 = (hybridCompute f st q k).1 ∧
      (hybridSearch f now st q k).2.cache =
        dictSet st.cache (cacheKey q k) (now, (hybridCompute f st q k).1)) ∧
    (∀ now2, (∀ t res, st.cache.lookup (cacheKey q k) = some (t, res) →
        ¬(now - t < cacheTtl)) → now2 - now < cacheTtl →
      hybridSearch f now2 (hybridSearch f now st q k).2 q k =
        ((hybridSearch f now st q k).1, (hybridSearch f now st q k).2)) := by
  cases hc : st.cache.lookup (cacheKey q k) with
  | none =>
    refine ⟨?_, ?_, ?_⟩
    · intro t res h
      simp [hc] at h
    · intro _
      constructor
      · simp [hybridSearch, hc]
      · simp [hybridSearch, hc, hybridCompute_cache]
    · intro now2 _ hfresh
      have hst2 : (hybridSearch f now st q k).2.cache.lookup (cacheKey q k) =
          some (now, (hybridSearch f now st q k).1) := by
        simp [hybridSearch, hc, hybridCompute_cache, dictSet_lookup_self]
      rw [hybridSearch]
      rw [hst2]
      simp [if_pos hfresh]
  | some tr =>
    obtain ⟨t0, res0⟩ := tr
    by_cases hfr : now - t0 < cacheTtl
    · refine ⟨?_, ?_, ?_⟩
      · intro t res h htl
        injection h with h2
        injection h2 with ha hb
        subst ha; subst hb
        simp [hybridSearch, hc, if_pos hfr]
      · intro hmiss
        exact absurd hfr (hmiss t0 res0 rfl)
      · intro now2 hmiss _
        exact absurd hfr (hmiss t0 res0 rfl)
    · refine ⟨?_, ?_, ?_⟩
      · intro t res h htl
        injection h with h2
        injection h2 with ha hb
        subst ha; subst hb
        exact absurd htl hfr
      · intro _
        constructor
        · simp [hybridSearch, hc, if_neg hfr]
        · simp [hybridSearch, hc, if_neg hfr, hybridCompute_cache]
      · intro now2 _ hfresh
        have hst2 : (hybridSearch f now st q k).2.cache.lookup (cacheKey q k) =
            some (now, (hybridSearch f now st q k).1) := by
          simp [hybridSearch, hc, if_neg hfr, hybridCompute_cache,
            dictSet_lookup_self]
        rw [hybridSearch]
        rw [hst2]
        simp [if_pos hfresh]

/-- Witness for the cache specification: a concrete fresh hit is served
verbatim with the state unchanged, and a concrete miss stores the computed
result with the current timestamp. -/
theorem hybridSearch_cache_spec_witness :
    hybridSearch (fun _ => [(0 : ℚ)]) 1
        { initSearcher with cache := [("q_1", ((0 : ℚ), ([] : List FusedResult)))] }
        "q" 1 =
      ([], { initSearcher with
              cache := [("q_1", ((0 : ℚ), ([] : List FusedResult)))] }) ∧
    (hybridSearch (fun _ => [(0 : ℚ)]) 1 initSearcher "q" 1).2.cache =
      dictSet initSearcher.cache (cacheKey "q" 1)
        (1, (hybridCompute (fun _ => [(0 : ℚ)]) initSearcher "q" 1).1) :=
  ⟨(hybridSearch_cache_spec (fun _ => [(0 : ℚ)]) 1
      { initSearcher with cache := [("q_1", ((0 : ℚ), ([] : List FusedResult)))] }
      "q" 1).1 0 [] (by decide) (by norm_num [cacheTtl]),
   ((hybridSearch_cache_spec (fun _ => [(0 : ℚ)]) 1 initSearcher "q" 1).2.1
      (by intro t res h; simp [initSearcher] at h)).2⟩

/- Lemmas about the lru_cache model shared by the embedding-cache claims. -/

theorem lookup_eraseP_ne {β : Type} (d : List (String × β)) (t t' : String)
    (h : t' ≠ t) :
    (d.eraseP fun p => p.1 == t).lookup t' = d.lookup t' := by
  induction d with
  | nil => simp
  | cons p ps ih =>
    rw [List.eraseP_cons]
    by_cases hp : p.1 = t
    · simp only [hp, beq_self_eq_true, cond_true]
      rw [lookup_cons, if_neg (by rw [hp]; exact h)]
    · have hb : (p.1 == t) = false := beq_eq_false_iff_ne.mpr hp
      simp only [hb, cond_false]
      rw [lookup_cons, lookup_cons]
      by_cases ht : t' = p.1
      · simp [ht]
      · rw [if_neg ht, if_neg ht]
        exact ih

theorem length_eraseP_lookup {β : Type} (d : List (String × β)) (t : String)
    (v : β) (h : d.lookup t = some v) :
    (d.eraseP fun p => p.1 == t).length + 1 = d.length := by
  induction d with
  | nil => simp [List.lookup] at h
  | cons p ps ih =>
    rw [lookup_cons] at h
    rw [List.eraseP_cons]
    by_cases hp : t = p.1
    · have hb : (p.1 == t) = true := by rw [beq_iff_eq]; exact hp.symm
      simp [hb]
    · rw [if_neg hp] at h
      have hb : (p.1 == t) = false :=
        beq_eq_false_iff_ne.mpr (fun hh => hp hh.symm)
      simp only [hb, cond_false, List.length_cons]
      rw [← ih h]

theorem getEmbedding_state_head (f : String → List ℚ)
    (lru : List (String × List ℚ)) (t : String) :
    ∃ rest, (getEmbedding f lru t).2.1 = (t, (getEmbedding f lru t).1) :: rest := by
  unfold getEmbedding
  cases hm : lru.lookup t with
  | some v => exact ⟨_, rfl⟩
  | none =>
    by_cases hlen : lruMaxsize < ((t, f t) :: lru).length
    · cases lru with
      | nil => simp [lruMaxsize] at hlen
      | cons a l =>
        refine ⟨(a :: l).dropLast, ?_⟩
        simp only [if_pos hlen, List.dropLast_cons₂]
    · refine ⟨lru, ?_⟩
      simp only [if_neg hlen]

/-- C7: if the underlying embedding computation fails on a string not held in
the cache, get_embedding propagates the failure to the caller, stores no
cache entry (the cache state is unchanged), and a subsequent call with the
same string invokes the computation again (instrumentation flag true) rather
than serving a poisoned cached value. -/
theorem getEmbeddingE_error_spec (f : String → Except Unit (List ℚ))
    (lru : List (String × List ℚ)) (t : String)
    (hmem : lru.lookup t = none) (herr : f t = .error ()) :
    getEmbeddingE f lru t = (.error (), lru, true) ∧
    getEmbeddingE f (getEmbeddingE f lru t).2.1 t = (.error (), lru, true) := by
  have h1 : getEmbeddingE f lru t = (.error (), lru, true) := by
    unfold getEmbeddingE
    rw [hmem, herr]
  refine ⟨h1, ?_⟩
  rw [h1]
  exact h1

/-- Witness for the failure-propagation specification at a concrete failing
embedder and an empty cache. -/
theorem getEmbeddingE_error_spec_witness :
    getEmbeddingE (fun _ => Except.error ()) [] "a" = (.error (), [], true) ∧
    getEmbeddingE (fun _ => Except.error ())
        (getEmbeddingE (fun _ => Except.error ()) [] "a").2.1 "a" =
      (.error (), [], true) :=
  getEmbeddingE_error_spec (fun _ => Except.error ()) [] "a" rfl rfl

theorem lruFull_length : lruFull.length = lruMaxsize := by
  simp [lruFull]

theorem lruFull_keys : lruFull.map Prod.fst =
    (List.range lruMaxsize).map fun i => String.mk (List.replicate i 'a') := by
  simp [lruFull, List.map_map, Function.comp]

theorem lruFull_keys_nodup : (lruFull.map Prod.fst).Nodup := by
  rw [lruFull_keys]
  refine List.Nodup.map ?_ (List.nodup_range _)
  intro i j hij
  have hd : List.replicate i 'a' = List.replicate j 'a' := by injection hij
  have hl := congrArg List.length hd
  simpa using hl

theorem lruFull_fresh :
    String.mk (List.replicate lruMaxsize 'a') ∉ lruFull.map Prod.fst := by
  rw [lruFull_keys]
  intro hmem
  obtain ⟨i, hi, he⟩ := List.mem_map.mp hmem
  have hd : List.replicate i 'a' = List.replicate lruMaxsize 'a' := by injection he
  have hl := congrArg List.length hd
  simp at hl
  rw [hl] at hi
  exact absurd (List.mem_range.mp hi) (lt_irrefl _)

theorem lruFull_ne_nil : lruFull ≠ [] := by
  intro h
  have hl := congrArg List.length h
  rw [lruFull_length] at hl
  simp [lruMaxsize] at hl

/-- C6: the embedding memoization cache.  (a) A second call with the
identical string returns the identical cached vector, leaves the cache state
unchanged and does not invoke the embedding computation (flag false).
(b) Distinct strings occupy independent slots: absent eviction, a call with
one string leaves any other string's entry untouched.  (c) The cache never
holds more than 1000 entries.  (d) Inserting a new string into a full cache
of 1000 distinct keys keeps the new entry in front and evicts exactly the
least-recently-used (last) entry; re-requesting the evicted string then
misses, triggering recomputation (flag true). -/
theorem getEmbedding_lru_spec (f : String → List ℚ)
    (lru : List (String × List ℚ)) (t : String) :
    getEmbedding f (getEmbedding f lru t).2.1 t =
      ((getEmbedding f lru t).1, (getEmbedding f lru t).2.1, false) ∧
    (∀ t2, t2 ≠ t → lru.length < lruMaxsize →
      (getEmbedding f lru t).2.1.lookup t2 = lru.lookup t2) ∧
    (lru.length ≤ lruMaxsize → (getEmbedding f lru t).2.1.length ≤ lruMaxsize) ∧
    (lru.length = lruMaxsize → (lru.map Prod.fst).Nodup →
      t ∉ lru.map Prod.fst →
      (getEmbedding f lru t).2.1 = (t, f t) :: lru.dropLast ∧
      ∀ h : lru ≠ [],
        (getEmbedding f ((t, f t) :: lru.dropLast) (lru.getLast h).1).2.2 = true) := by
  refine ⟨?_, ?_, ?_, ?_⟩
  · obtain ⟨rest, hS⟩ := getEmbedding_state_head f lru t
    rw [hS]
    generalize (getEmbedding f lru t).1 = v
    have hl : ((t, v) :: rest).lookup t = some v := by
      rw [lookup_cons]
      simp
    unfold getEmbedding
    rw [hl]
    simp [List.eraseP_cons]
  · intro t2 hne hlen
    unfold getEmbedding
    cases hm : lru.lookup t with
    | some v =>
      simp only
      rw [lookup_cons, if_neg hne]
      exact lookup_eraseP_ne lru t t2 hne
    | none =>
      have hcap : ¬ lruMaxsize < ((t, f t) :: lru).length := by
        simp only [List.length_cons]
        omega
      simp only [if_neg hcap]
      rw [lookup_cons, if_neg hne]
  · intro hle
    unfold getEmbedding
    cases hm : lru.lookup t with
    | some v =>
      simp only [List.length_cons]
      rw [length_eraseP_lookup lru t v hm]
      exact hle
    | none =>
      by_cases hcap : lruMaxsize < ((t, f t) :: lru).length
      · simp only [if_pos hcap]
        simp only [List.length_dropLast, List.length_cons]
        omega
      · simp only [if_neg hcap]
        simp only [List.length_cons]
        simp only [List.length_cons] at hcap
        omega
  · intro hlen hnd hnm
    have hm : lru.lookup t = none := (lookup_eq_none_iff lru t).mpr hnm
    have hcap : lruMaxsize < ((t, f t) :: lru).length := by
      simp only [List.length_cons, hlen]
      omega
    have hstate : (getEmbedding f lru t).2.1 = (t, f t) :: lru.dropLast := by
      unfold getEmbedding
      rw [hm]
      simp only [if_pos hcap]
      cases lru with
      | nil => simp [lruMaxsize] at hlen
      | cons a l => simp only [List.dropLast_cons₂]
    refine ⟨hstate, ?_⟩
    intro h
    have hkt : (lru.getLast h).1 ≠ t := by
      intro he
      exact hnm (he ▸ List.mem_map.mpr ⟨_, List.getLast_mem h, rfl⟩)
    have hkdl : (lru.getLast h).1 ∉ lru.dropLast.map Prod.fst := by
      have hsplit : lru.dropLast.map Prod.fst ++ [(lru.getLast h).1] =
          lru.map Prod.fst := by
        calc lru.dropLast.map Prod.fst ++ [(lru.getLast h).1]
            = (lru.dropLast ++ [lru.getLast h]).map Prod.fst := by
              rw [List.map_append]
              rfl
          _ = lru.map Prod.fst := by rw [List.dropLast_append_getLast h]
      rw [← hsplit] at hnd
      intro hmem
      exact (List.nodup_append.mp hnd).2.2 hmem (List.mem_singleton_self _)
    have hlk : (((t, f t) :: lru.dropLast).lookup (lru.getLast h).1) = none := by
      rw [lookup_cons, if_neg hkt]
      exact (lookup_eq_none_iff _ _).mpr hkdl
    unfold getEmbedding
    rw [hlk]

/-- Witness for the embedding-cache specification: a concrete repeated call
is served from the cache; a concrete foreign entry survives a different
insertion; a concrete insertion respects the bound; inserting a fresh string
into the full 1000-entry cache evicts exactly its last entry, whose
re-request then recomputes. -/
theorem getEmbedding_lru_spec_witness :
    getEmbedding (fun _ => [(1 : ℚ)])
        (getEmbedding (fun _ => [(1 : ℚ)]) [] "x").2.1 "x" =
      ((getEmbedding (fun _ => [(1 : ℚ)]) [] "x").1,
        (getEmbedding (fun _ => [(1 : ℚ)]) [] "x").2.1, false) ∧
    (getEmbedding (fun _ => [(1 : ℚ)]) [("y", [2])] "x").2.1.lookup "y" =
      [("y", [(2 : ℚ)])].lookup "y" ∧
    (getEmbedding (fun _ => [(1 : ℚ)]) [] "x").2.1.length ≤ lruMaxsize ∧
    (getEmbedding (fun _ => [(1 : ℚ)]) lruFull
        (String.mk (List.replicate lruMaxsize 'a'))).2.1 =
      (String.mk (List.replicate lruMaxsize 'a'), [(1 : ℚ)]) :: lruFull.dropLast ∧
    (getEmbedding (fun _ => [(1 : ℚ)])
        ((String.mk (List.replicate lruMaxsize 'a'), [(1 : ℚ)]) :: lruFull.dropLast)
        (lruFull.getLast lruFull_ne_nil).1).2.2 = true :=
  ⟨(getEmbedding_lru_spec (fun _ => [(1 : ℚ)]) [] "x").1,
   (getEmbedding_lru_spec (fun _ => [(1 : ℚ)]) [("y", [2])] "x").2.1 "y"
     (by decide) (by decide),
   (getEmbedding_lru_spec (fun _ => [(1 : ℚ)]) [] "x").2.2.1 (by decide),
   ((getEmbedding_lru_spec (fun _ => [(1 : ℚ)]) lruFull
       (String.mk (List.replicate lruMaxsize 'a'))).2.2.2
     lruFull_length lruFull_keys_nodup lruFull_fresh).1,
   ((getEmbedding_lru_spec (fun _ => [(1 : ℚ)]) lruFull
       (String.mk (List.replicate lruMaxsize 'a'))).2.2.2
     lruFull_length lruFull_keys_nodup lruFull_fresh).2 lruFull_ne_nil⟩

theorem runAdds_append (f : String → List ℚ) (st : DocStore)
    (cs : List (String × Metadata × String)) (c : String × Metadata × String) :
    runAdds f st (cs ++ [c]) =
      (addDocument f (runAdds f st cs) c.1 c.2.1 c.2.2).1 := by
  simp [runAdds, List.foldl_append]

/-- C8 counterexample: DocumentStore.add_document has no return statement —
the call returns None, not the assigned doc_id (here 0 for the first call on
a fresh store). -/
theorem addDocument_returns_none_concrete :
    (addDocument (fun _ => [(0 : ℚ)]) initDocStore "a" [] "T").2 = none ∧
    (addDocument (fun _ => [(0 : ℚ)]) initDocStore "a" [] "T").2 ≠ some 0 :=
  ⟨rfl, fun h => Option.noConfusion h⟩

/-- C8 (amended): over any sequence of add_document calls on a fresh store,
the i-th call (0-based) assigns the next sequential identifier i — so the
identifiers are exactly 0..n-1, monotonically increasing and unique within
the store instance — stamps the insertion timestamp into the stored metadata
under the reserved key added_at (and the id under doc_id), and forwards the
content together with the enriched metadata to the searcher's indices; the
call itself returns None (the Python body has no return statement), not the
assigned doc_id. -/
theorem addDocument_spec (f : String → List ℚ)
    (calls : List (String × Metadata × String)) :
    (runAdds f initDocStore calls).document_metadata =
      calls.enum.map (fun p =>
        (p.1, dictSet (dictSet p.2.2.1 "added_at" (MVal.str p.2.2.2)) "doc_id"
          (MVal.nat p.1))) ∧
    (runAdds f initDocStore calls).document_metadata.map Prod.fst =
      List.range calls.length ∧
    (runAdds f initDocStore calls).searcher.documents = calls.map (·.1) ∧
    (runAdds f initDocStore calls).searcher.document_metadata =
      calls.enum.map (fun p =>
        dictSet (dictSet p.2.2.1 "added_at" (MVal.str p.2.2.2)) "doc_id"
          (MVal.nat p.1)) ∧
    (∀ i, ∀ h : i < calls.length, ∃ m,
      (runAdds f initDocStore calls).document_metadata.get? i = some (i, m) ∧
      m.lookup "added_at" = some (MVal.str (calls.get ⟨i, h⟩).2.2) ∧
      m.lookup "doc_id" = some (MVal.nat i)) ∧
    (∀ st c m ts, (addDocument f st c m ts).2 = none) := by
  have hmain : (runAdds f initDocStore calls).document_metadata =
      calls.enum.map (fun p =>
        (p.1, dictSet (dictSet p.2.2.1 "added_at" (MVal.str p.2.2.2)) "doc_id"
          (MVal.nat p.1))) ∧
      (runAdds f initDocStore calls).searcher.documents = calls.map (·.1) ∧
      (runAdds f initDocStore calls).searcher.document_metadata =
        calls.enum.map (fun p =>
          dictSet (dictSet p.2.2.1 "added_at" (MVal.str p.2.2.2)) "doc_id"
            (MVal.nat p.1)) := by
    induction calls using List.reverseRecOn with
    | nil => exact ⟨rfl, rfl, rfl⟩
    | append_singleton cs c ih =>
      obtain ⟨ih1, ih2, ih3⟩ := ih
      have hlen : (runAdds f initDocStore cs).document_metadata.length =
          cs.length := by
        rw [ih1, List.length_map, List.enum_length]
      rw [runAdds_append]
      have henum : (cs ++ [c]).enum = cs.enum ++ [(cs.length, c)] := by
        rw [List.enum_append]
        rfl
      refine ⟨?_, ?_, ?_⟩
      · simp only [addDocument]
        rw [hlen, ih1, henum, List.map_append]
        rfl
      · simp only [addDocument, addDocuments, List.isEmpty_cons, ih2,
          List.map_append]
        rfl
      · simp only [addDocument, addDocuments, List.isEmpty_cons, ih3, hlen,
          henum, List.map_append]
        rfl
  obtain ⟨h1, h2, h3⟩ := hmain
  have hfst : (runAdds f initDocStore calls).document_metadata.map Prod.fst =
      List.range calls.length := by
    rw [h1, List.map_map]
    have : (Prod.fst ∘ fun p : ℕ × (String × Metadata × String) =>
        (p.1, dictSet (dictSet p.2.2.1 "added_at" (MVal.str p.2.2.2)) "doc_id"
          (MVal.nat p.1))) = Prod.fst := by
      funext p
      rfl
    rw [this, List.enum_map_fst]
  refine ⟨h1, hfst, h2, h3, ?_, ?_⟩
  · intro i h
    refine ⟨dictSet (dictSet (calls.get ⟨i, h⟩).2.1 "added_at"
      (MVal.str (calls.get ⟨i, h⟩).2.2)) "doc_id" (MVal.nat i), ?_, ?_, ?_⟩
    · rw [h1, List.get?_map, List.get?_enum]
      rw [List.get?_eq_get h]
      rfl
    · rw [dictSet_lookup_ne _ _ _ _ (by decide), dictSet_lookup_self]
    · rw [dictSet_lookup_self]
  · intro st c m ts
    rfl

/-- Witness for the add_document specification at a single concrete call. -/
theorem addDocument_spec_witness :
    ∃ m, (runAdds (fun _ => [(0 : ℚ)]) initDocStore
        [("a", [], "T")]).document_metadata.get? 0 = some (0, m) ∧
      m.lookup "added_at" = some (MVal.str "T") ∧
      m.lookup "doc_id" = some (MVal.nat 0) :=
  (addDocument_spec (fun _ => [(0 : ℚ)]) [("a", [], "T")]).2.2.2.2.1 0
    (by decide)

theorem lookup_mem {β : Type} (d : List (String × β)) (k : String) (v : β)
    (h : d.lookup k = some v) : (k, v) ∈ d := by
  induction d with
  | nil => simp [List.lookup] at h
  | cons p ps ih =>
    rw [lookup_cons] at h
    by_cases hp : k = p.1
    · rw [if_pos hp] at h
      injection h with h2
      refine List.mem_cons.mpr (Or.inl ?_)
      rw [hp, ← h2]
    · rw [if_neg hp] at h
      exact List.mem_cons.mpr (Or.inr (ih h))

theorem getEmbedding_coherent (f : String → List ℚ)
    (lru : List (String × List ℚ)) (t : String)
    (hc : ∀ p ∈ lru, p.2 = f p.1) :
    (getEmbedding f lru t).1 = f t ∧
    ∀ p ∈ (getEmbedding f lru t).2.1, p.2 = f p.1 := by
  unfold getEmbedding
  cases hm : lru.lookup t with
  | some v =>
    have hv : v = f t := hc (t, v) (lookup_mem lru t v hm)
    refine ⟨hv, ?_⟩
    intro p hp
    rcases List.mem_cons.mp hp with h | h
    · rw [h, hv]
    · exact hc p ((List.eraseP_sublist lru).subset h)
  | none =>
    have hall : ∀ p ∈ (t, f t) :: lru, p.2 = f p.1 := by
      intro p hp
      rcases List.mem_cons.mp hp with h | h
      · rw [h]
      · exact hc p h
    refine ⟨rfl, ?_⟩
    intro p hp
    by_cases hcap : lruMaxsize < ((t, f t) :: lru).length
    · simp only [if_pos hcap] at hp
      exact hall p ((List.dropLast_sublist _).subset hp)
    · simp only [if_neg hcap] at hp
      exact hall p hp

theorem addDocuments_emb (f : String → List ℚ) (docs : List String)
    (acc : List (List ℚ)) (lru : List (String × List ℚ))
    (hc : ∀ p ∈ lru, p.2 = f p.1) :
    (docs.foldl
      (fun acc doc =>
        let e := getEmbedding f acc.2 doc
        (acc.1 ++ [e.1], e.2.1)) (acc, lru)).1 = acc ++ docs.map f ∧
    ∀ p ∈ (docs.foldl
      (fun acc doc =>
        let e := getEmbedding f acc.2 doc
        (acc.1 ++ [e.1], e.2.1)) (acc, lru)).2, p.2 = f p.1 := by
  induction docs generalizing acc lru with
  | nil => simpa using hc
  | cons d ds ih =>
    simp only [List.foldl_cons]
    have h1 := getEmbedding_coherent f lru d hc
    have h2 := ih (acc ++ [(getEmbedding f lru d).1]) (getEmbedding f lru d).2.1 h1.2
    constructor
    · rw [h2.1, h1.1, List.map_cons, List.append_assoc]
      rfl
    · exact h2.2

/-- C5 counterexample: add_documents applies no length check to a caller
supplied metadata list — one document with a two-entry metadata list leaves
the documents list (length 1) and the metadata list (length 2) out of
lock-step. -/
theorem addDocuments_mismatch_concrete :
    (addDocuments (fun _ => [(0 : ℚ)]) initSearcher ["a"]
        (some [[], []])).documents.length ≠
      (addDocuments (fun _ => [(0 : ℚ)]) initSearcher ["a"]
        (some [[], []])).document_metadata.length := by
  decide

/-- C5 (amended): provided every add_documents call passes either no
metadata or a metadata list of the same length as its documents list, the
lock-step invariant holds after every sequence of calls: the documents list
and the metadata list have equal length, and the vector index holds exactly
the embedding of document i at row i (so its row count equals both lengths);
each addition is a single atomic state transition establishing all of this
at once. -/
theorem addDocuments_lockstep (f : String → List ℚ) :
    SearcherInv f initSearcher ∧
    (∀ st docs md, SearcherInv f st →
      (md = none ∨ ∃ l, md = some l ∧ l.length = docs.length) →
      SearcherInv f (addDocuments f st docs md)) ∧
    (∀ Ls : List (List String × Option (List Metadata)),
      (∀ c ∈ Ls, c.2 = none ∨ ∃ l, c.2 = some l ∧ l.length = c.1.length) →
      SearcherInv f (Ls.foldl (fun s c => addDocuments f s c.1 c.2) initSearcher)) ∧
    (∀ st docs md, SearcherInv f st →
      (md = none ∨ ∃ l, md = some l ∧ l.length = docs.length) →
      (addDocuments f st docs md).document_metadata.length =
        (addDocuments f st docs md).documents.length ∧
      ∀ rows, (addDocuments f st docs md).index = some rows →
        rows = (addDocuments f st docs md).documents.map f) := by
  have hinit : SearcherInv f initSearcher :=
    ⟨rfl, rfl, fun p hp => absurd hp (List.not_mem_nil p)⟩
  have hstep : ∀ st docs md, SearcherInv f st →
      (md = none ∨ ∃ l, md = some l ∧ l.length = docs.length) →
      SearcherInv f (addDocuments f st docs md) := by
    intro st docs md hinv hmd
    obtain ⟨hlen, hidx, hlru⟩ := hinv
    unfold addDocuments
    cases docs with
    | nil => exact ⟨hlen, hidx, hlru⟩
    | cons d ds =>
      simp only [List.isEmpty_cons, Bool.false_eq_true, if_false]
      have hemb := addDocuments_emb f (d :: ds) [] st.lru hlru
      have hmdlen : (md.getD (List.replicate (d :: ds).length [])).length =
          (d :: ds).length := by
        rcases hmd with h | ⟨l, hl, hll⟩
        · rw [h]
          exact List.length_replicate _ _
        · rw [hl]
          exact hll
      refine ⟨?_, ?_, ?_⟩
      · simp only [List.length_append, hlen, hmdlen]
      · simp only
        rw [hemb.1]
        cases hic : st.index with
        | none =>
          rw [hic] at hidx
          simp only [hidx]
          rfl
        | some rs =>
          rw [hic] at hidx
          simp only [hidx, List.map_append, List.nil_append]
      · exact hemb.2
  have hseq : ∀ (Ls : List (List String × Option (List Metadata)))
      (st : Searcher), SearcherInv f st →
      (∀ c ∈ Ls, c.2 = none ∨ ∃ l, c.2 = some l ∧ l.length = c.1.length) →
      SearcherInv f (Ls.foldl (fun s c => addDocuments f s c.1 c.2) st) := by
    intro Ls
    induction Ls with
    | nil => intro st h _; exact h
    | cons c cs ih =>
      intro st h hall
      simp only [List.foldl_cons]
      exact ih _ (hstep st c.1 c.2 h (hall c (List.mem_cons_self c cs)))
        (fun c2 h2 => hall c2 (List.mem_cons.mpr (Or.inr h2)))
  refine ⟨hinit, hstep, fun Ls hall => hseq Ls initSearcher hinit hall, ?_⟩
  intro st docs md hinv hmd
  obtain ⟨hl2, hi2, _⟩ := hstep st docs md hinv hmd
  refine ⟨hl2, ?_⟩
  intro rows hrows
  rw [hrows] at hi2
  exact hi2

/-- Witness for the lock-step invariant at a concrete single call. -/
theorem addDocuments_lockstep_witness :
    SearcherInv (fun _ => [(0 : ℚ)])
      (addDocuments (fun _ => [(0 : ℚ)]) initSearcher ["a"] none) :=
  (addDocuments_lockstep (fun _ => [(0 : ℚ)])).2.1 initSearcher ["a"] none
    ⟨rfl, rfl, fun p hp => absurd hp (List.not_mem_nil p)⟩ (Or.inl rfl)

/-- C2 exhibit: on a store holding n = 1 document with k = 5 requested,
semantic_search does not return just the 1 stored row: FAISS pads the
missing 4 slots with row id -1, the guard `idx < len(self.documents)` does
not exclude -1, and Python negative indexing resolves documents[-1] to the
last stored document — so the call returns 5 results, the real row (score 1)
plus 4 phantom duplicates of the last document carrying the sentinel-distance
score.  The claim's promise of exactly the n stored rows with no duplicated
or phantom entries fails. -/
theorem semanticSearch_phantom_concrete :
    (semanticSearch (fun _ => [(0 : ℚ)])
        { index := some [[0]], documents := ["a"], document_metadata := [[]],
          cache := [], lru := [] } "q" 5).1.map (fun r => r.content) =
      ["a", "a", "a", "a", "a"] ∧
    (semanticSearch (fun _ => [(0 : ℚ)])
        { index := some [[0]], documents := ["a"], document_metadata := [[]],
          cache := [], lru := [] } "q" 5).1.length = 5 := by
  constructor <;> decide

/- Sorting lemmas relativized to a predicate satisfied by the list elements
(lexLe is only transitive on entries with positive overlap and vocabulary,
which is all lexical_search ever sorts). -/

theorem pairwise_orderedInsert_rel {α : Type} (r : α → α → Prop)
    [DecidableRel r] (P : α → Prop)
    (htot : ∀ a b, P a → P b → r a b ∨ r b a)
    (htr : ∀ a b c, P a → P b → P c → r a b → r b c → r a c)
    (x : α) (l : List α) (hx : P x) (hl : ∀ y ∈ l, P y)
    (hs : l.Pairwise r) : (l.orderedInsert r x).Pairwise r := by
  induction l with
  | nil => simp
  | cons y ys ih =>
    simp only [List.orderedInsert]
    by_cases hxy : r x y
    · rw [if_pos hxy]
      refine List.pairwise_cons.mpr ⟨?_, hs⟩
      intro z hz
      rcases List.mem_cons.mp hz with h | h
      · rw [h]
        exact hxy
      · exact htr x y z hx (hl y (List.mem_cons_self _ _))
          (hl z (List.mem_cons.mpr (Or.inr h))) hxy
          ((List.pairwise_cons.mp hs).1 z h)
    · rw [if_neg hxy]
      have hyx : r y x :=
        (htot x y hx (hl y (List.mem_cons_self _ _))).resolve_left hxy
      refine List.pairwise_cons.mpr ⟨?_, ?_⟩
      · intro z hz
        rcases (List.mem_orderedInsert r).mp hz with h | h
        · rw [h]
          exact hyx
        · exact (List.pairwise_cons.mp hs).1 z h
      · exact ih (fun y2 h2 => hl y2 (List.mem_cons.mpr (Or.inr h2)))
          (List.pairwise_cons.mp hs).2

theorem pairwise_insertionSort_rel {α : Type} (r : α → α → Prop)
    [DecidableRel r] (P : α → Prop)
    (htot : ∀ a b, P a → P b → r a b ∨ r b a)
    (htr : ∀ a b c, P a → P b → P c → r a b → r b c → r a c)
    (l : List α) (hl : ∀ y ∈ l, P y) : (l.insertionSort r).Pairwise r := by
  induction l with
  | nil => simp
  | cons x xs ih =>
    simp only [List.insertionSort]
    refine pairwise_orderedInsert_rel r P htot htr x _
      (hl x (List.mem_cons_self _ _)) ?_
      (ih (fun y h => hl y (List.mem_cons.mpr (Or.inr h))))
    intro y hy
    exact hl y (List.mem_cons.mpr
      (Or.inr ((List.perm_insertionSort r xs).subset hy)))

/- The comparison (1+d₂)^o₁ vs (1+d₁)^o₂ on naturals coincides with the
comparison of the real scores o / (q * ln(1+d)) used by lexical_search,
for any positive query-token count q. -/

theorem logscore_lt_iff (q o1 d1 o2 d2 : ℕ) (hq : 0 < q) (hd1 : 0 < d1)
    (hd2 : 0 < d2) :
    ((o2 : ℝ) / (q * Real.log (1 + d2)) < (o1 : ℝ) / (q * Real.log (1 + d1)) ↔
      (1 + d1) ^ o2 < (1 + d2) ^ o1) := by
  have hc1 : (1 : ℝ) ≤ (d1 : ℝ) := by exact_mod_cast hd1
  have hc2 : (1 : ℝ) ≤ (d2 : ℝ) := by exact_mod_cast hd2
  have hl1 : (0 : ℝ) < Real.log (1 + d1) := Real.log_pos (by linarith)
  have hl2 : (0 : ℝ) < Real.log (1 + d2) := Real.log_pos (by linarith)
  have hqr : (0 : ℝ) < (q : ℝ) := by exact_mod_cast hq
  rw [div_lt_div_iff (by positivity) (by positivity)]
  rw [show (o2 : ℝ) * ((q : ℝ) * Real.log (1 + d1)) =
      (q : ℝ) * ((o2 : ℝ) * Real.log (1 + d1)) by ring]
  rw [show (o1 : ℝ) * ((q : ℝ) * Real.log (1 + d2)) =
      (q : ℝ) * ((o1 : ℝ) * Real.log (1 + d2)) by ring]
  rw [mul_lt_mul_left hqr]
  rw [← Real.log_pow, ← Real.log_pow]
  rw [Real.log_lt_log_iff (by positivity) (by positivity)]
  constructor
  · intro h
    exact_mod_cast h
  · intro h
    exact_mod_cast h

theorem logscore_eq_iff (q o1 d1 o2 d2 : ℕ) (hq : 0 < q) (hd1 : 0 < d1)
    (hd2 : 0 < d2) :
    ((o1 : ℝ) / (q * Real.log (1 + d1)) = (o2 : ℝ) / (q * Real.log (1 + d2)) ↔
      (1 + d2) ^ o1 = (1 + d1) ^ o2) := by
  have h1 := logscore_lt_iff q o1 d1 o2 d2 hq hd1 hd2
  have h2 := logscore_lt_iff q o2 d2 o1 d1 hq hd2 hd1
  constructor
  · intro h
    have hn1 : ¬ (1 + d1) ^ o2 < (1 + d2) ^ o1 := by
      rw [← h1, h]
      exact lt_irrefl _
    have hn2 : ¬ (1 + d2) ^ o1 < (1 + d1) ^ o2 := by
      rw [← h2, h]
      exact lt_irrefl _
    omega
  · intro h
    have hn1 : ¬ ((o2 : ℝ) / (q * Real.log (1 + d2)) <
        (o1 : ℝ) / (q * Real.log (1 + d1))) := by
      rw [h1]
      omega
    have hn2 : ¬ ((o1 : ℝ) / (q * Real.log (1 + d1)) <
        (o2 : ℝ) / (q * Real.log (1 + d2))) := by
      rw [h2]
      omega
    linarith

theorem lexEntry_some (md : List Metadata) (qs : Finset String)
    (p : ℕ × String) (r : LexResult) (h : lexEntry md qs p = some r) :
    r.content = p.2 ∧ r.idx = p.1 ∧
    r.overlap = (qs ∩ (tokenize p.2).toFinset).card ∧
    r.dsize = (tokenize p.2).toFinset.card ∧ 0 < r.overlap := by
  unfold lexEntry at h
  by_cases hc : 0 < (qs ∩ (tokenize p.2).toFinset).card
  · rw [if_pos hc] at h
    injection h with h2
    subst h2
    exact ⟨rfl, rfl, rfl, rfl, hc⟩
  · rw [if_neg hc] at h
    exact absurd h (by simp)

theorem lexEntries_props (md : List Metadata) (qs : Finset String)
    (docs : List String) (r : LexResult)
    (h : r ∈ docs.enum.filterMap (lexEntry md qs)) :
    docs.get? r.idx = some r.content ∧
    r.overlap = (qs ∩ (tokenize r.content).toFinset).card ∧
    r.dsize = (tokenize r.content).toFinset.card ∧ 0 < r.overlap := by
  obtain ⟨p, hp, he⟩ := List.mem_filterMap.mp h
  obtain ⟨h1, h2, h3, h4, h5⟩ := lexEntry_some md qs p r he
  have hget : docs.get? p.1 = some p.2 := by
    have hg := List.mem_enum_iff_getElem?.mp hp
    simpa using hg
  rw [h1, h2]
  exact ⟨hget, h3, h4, h5⟩

theorem lexEntry_filterMap_idx_sublist (md : List Metadata) (qs : Finset String)
    (l : List (ℕ × String)) :
    ((l.filterMap (lexEntry md qs)).map (fun r => r.idx)).Sublist
      (l.map Prod.fst) := by
  induction l with
  | nil => simp
  | cons p ps ih =>
    rw [List.filterMap_cons, List.map_cons]
    cases he : lexEntry md qs p with
    | none => exact ih.cons p.1
    | some r =>
      rw [List.map_cons, (lexEntry_some md qs p r he).2.1]
      exact ih.cons₂ p.1

/-- C4: lexical_search with tokenization as lowercased maximal runs of
alphanumeric/underscore characters.  (1) At most k results.  (2) Every
returned result is a stored document with a positive unique-token overlap
with the query, carrying exactly the score data |Q ∩ D| and |D| of the
formula |Q ∩ D| / (|Q| * ln(1 + |D|)).  (3) A document sharing no token with
the query is never returned.  (4) The returned list is ordered by the real
score |Q ∩ D| / (|Q| * ln(1 + |D|)) strictly descending, with exact ties
broken by ascending original corpus position. -/
theorem lexicalSearch_spec (md : List Metadata) (q : String)
    (docs : List String) (k : ℕ) :
    (lexicalSearch md q docs k).length ≤ k ∧
    (∀ r ∈ lexicalSearch md q docs k,
      0 < r.overlap ∧
      docs.get? r.idx = some r.content ∧
      r.overlap = ((tokenize q).toFinset ∩ (tokenize r.content).toFinset).card ∧
      r.dsize = (tokenize r.content).toFinset.card) ∧
    (∀ i, ∀ h : i < docs.length,
      ((tokenize q).toFinset ∩ (tokenize (docs.get ⟨i, h⟩)).toFinset).card = 0 →
      ∀ r ∈ lexicalSearch md q docs k, r.idx ≠ i) ∧
    (lexicalSearch md q docs k).Pairwise (fun a b =>
      (b.overlap : ℝ) / ((tokenize q).toFinset.card * Real.log (1 + b.dsize)) <
        (a.overlap : ℝ) / ((tokenize q).toFinset.card * Real.log (1 + a.dsize)) ∨
      ((a.overlap : ℝ) / ((tokenize q).toFinset.card * Real.log (1 + a.dsize)) =
        (b.overlap : ℝ) / ((tokenize q).toFinset.card * Real.log (1 + b.dsize)) ∧
        a.idx < b.idx)) := by
  have hmem : ∀ r ∈ lexicalSearch md q docs k,
      r ∈ docs.enum.filterMap (lexEntry md (tokenize q).toFinset) := by
    intro r hr
    unfold lexicalSearch at hr
    exact (List.perm_insertionSort lexLe _).subset
      ((List.take_sublist k _).subset hr)
  have hprops : ∀ r ∈ lexicalSearch md q docs k,
      docs.get? r.idx = some r.content ∧
      r.overlap = ((tokenize q).toFinset ∩ (tokenize r.content).toFinset).card ∧
      r.dsize = (tokenize r.content).toFinset.card ∧ 0 < r.overlap :=
    fun r hr => lexEntries_props md _ docs r (hmem r hr)
  have hP : ∀ r ∈ docs.enum.filterMap (lexEntry md (tokenize q).toFinset),
      0 < r.overlap ∧ 0 < r.dsize := by
    intro r hr
    obtain ⟨_, h2, h3, h4⟩ := lexEntries_props md _ docs r hr
    refine ⟨h4, ?_⟩
    have hle : r.overlap ≤ r.dsize := by
      rw [h2, h3]
      exact Finset.card_le_card Finset.inter_subset_right
    omega
  have hPq : ∀ r ∈ lexicalSearch md q docs k,
      0 < r.overlap ∧ 0 < r.dsize ∧ 0 < (tokenize q).toFinset.card := by
    intro r hr
    obtain ⟨h1, h2⟩ := hP r (hmem r hr)
    refine ⟨h1, h2, ?_⟩
    obtain ⟨_, ho, _, _⟩ := hprops r hr
    have hoq : r.overlap ≤ (tokenize q).toFinset.card := by
      rw [ho]
      exact Finset.card_le_card Finset.inter_subset_left
    omega
  refine ⟨?_, ?_, ?_, ?_⟩
  · exact List.length_take_le k _
  · intro r hr
    obtain ⟨h1, h2, h3, h4⟩ := hprops r hr
    exact ⟨h4, h1, h2, h3⟩
  · intro i h hc r hr hri
    obtain ⟨h1, h2, _, h4⟩ := hprops r hr
    rw [hri] at h1
    rw [List.get?_eq_get h] at h1
    injection h1 with h1
    rw [h1] at hc
    rw [hc] at h2
    omega
  · have hsorted : (lexicalSearch md q docs k).Pairwise lexLe := by
      unfold lexicalSearch
      refine List.Pairwise.sublist (List.take_sublist k _) ?_
      refine pairwise_insertionSort_rel lexLe
        (fun r => 0 < r.overlap ∧ 0 < r.dsize) ?_ ?_ _ hP
      · intro a b _ _
        rcases lt_trichotomy ((1 + b.dsize) ^ a.overlap)
            ((1 + a.dsize) ^ b.overlap) with h | h | h
        · exact Or.inr (Or.inl h)
        · rcases le_total a.idx b.idx with hi | hi
          · exact Or.inl (Or.inr ⟨h, hi⟩)
          · exact Or.inr (Or.inr ⟨h.symm, hi⟩)
        · exact Or.inl (Or.inl h)
      · intro a b c ha hb hc hab hbc
        have iab := logscore_lt_iff 1 a.overlap a.dsize b.overlap b.dsize
          one_pos ha.2 hb.2
        have ibc := logscore_lt_iff 1 b.overlap b.dsize c.overlap c.dsize
          one_pos hb.2 hc.2
        have iac := logscore_lt_iff 1 a.overlap a.dsize c.overlap c.dsize
          one_pos ha.2 hc.2
        have eab := logscore_eq_iff 1 a.overlap a.dsize b.overlap b.dsize
          one_pos ha.2 hb.2
        have ebc := logscore_eq_iff 1 b.overlap b.dsize c.overlap c.dsize
          one_pos hb.2 hc.2
        have eac := logscore_eq_iff 1 a.overlap a.dsize c.overlap c.dsize
          one_pos ha.2 hc.2
        rcases hab with h1 | ⟨h1, h1i⟩ <;> rcases hbc with h2 | ⟨h2, h2i⟩
        · exact Or.inl (iac.mp (lt_trans (ibc.mpr h2) (iab.mpr h1)))
        · have hsc := ebc.mpr h2
          exact Or.inl (iac.mp (hsc ▸ iab.mpr h1))
        · have hsc := eab.mpr h1
          refine Or.inl (iac.mp ?_)
          rw [hsc]
          exact ibc.mpr h2
        · exact Or.inr ⟨eac.mp ((eab.mpr h1).trans (ebc.mpr h2)),
            le_trans h1i h2i⟩
    have hnd : ((lexicalSearch md q docs k).map fun r => r.idx).Nodup := by
      have h1 : ((docs.enum.filterMap (lexEntry md (tokenize q).toFinset)).map
          fun r => r.idx).Nodup :=
        List.Nodup.sublist (lexEntry_filterMap_idx_sublist md _ docs.enum)
          (by rw [List.enum_map_fst]; exact List.nodup_range _)
      have h2 : (((docs.enum.filterMap
          (lexEntry md (tokenize q).toFinset)).insertionSort lexLe).map
          fun r => r.idx).Nodup :=
        ((List.perm_insertionSort lexLe _).map _).nodup_iff.mpr h1
      unfold lexicalSearch
      rw [List.map_take]
      exact List.Nodup.sublist (List.take_sublist k _) h2
    have hne : (lexicalSearch md q docs k).Pairwise fun a b => a.idx ≠ b.idx :=
      List.pairwise_map.mp hnd
    refine List.Pairwise.imp_of_mem ?_ (hsorted.and hne)
    intro a b ha hb hab
    obtain ⟨hao, had, haq⟩ := hPq a ha
    obtain ⟨hbo, hbd, _⟩ := hPq b hb
    rcases hab.1 with hgt | ⟨heq, hle⟩
    · exact Or.inl ((logscore_lt_iff ((tokenize q).toFinset.card) a.overlap
        a.dsize b.overlap b.dsize haq had hbd).mpr hgt)
    · exact Or.inr ⟨(logscore_eq_iff ((tokenize q).toFinset.card) a.overlap
        a.dsize b.overlap b.dsize haq had hbd).mpr heq,
        lt_of_le_of_ne hle hab.2⟩

/-- Witness for the lexical-search specification: on a concrete two-document
corpus, at most k results are returned and the zero-overlap document at
corpus position 1 never appears. -/
theorem lexicalSearch_spec_witness :
    (lexicalSearch [] "quick fox" ["the quick", "zzz"] 5).length ≤ 5 ∧
    ∀ r ∈ lexicalSearch [] "quick fox" ["the quick", "zzz"] 5, r.idx ≠ 1 :=
  ⟨(lexicalSearch_spec [] "quick fox" ["the quick", "zzz"] 5).1,
   (lexicalSearch_spec [] "quick fox" ["the quick", "zzz"] 5).2.2.1 1
     (by decide) (by decide)⟩

/- Infrastructure for the RRF fusion claim. -/

theorem semanticSearch_state (f : String → List ℚ) (st : Searcher) (q : String)
    (k : ℕ) : (semanticSearch f st q k).2.documents = st.documents ∧
      (semanticSearch f st q k).2.document_metadata = st.document_metadata := by
  unfold semanticSearch
  cases st.index <;> simp

theorem hybridSearch_miss_eq (f : String → List ℚ) (now : ℚ) (st : Searcher)
    (q : String) (k : ℕ)
    (hmiss : ∀ t res, st.cache.lookup (cacheKey q k) = some (t, res) →
      ¬(now - t < cacheTtl)) :
    (hybridSearch f now st q k).1 = (hybridCompute f st q k).1 := by
  cases hc : st.cache.lookup (cacheKey q k) with
  | none => simp [hybridSearch, hc]
  | some tr =>
    obtain ⟨t0, res0⟩ := tr
    have hexp : ¬(now - t0 < cacheTtl) := hmiss t0 res0 hc
    simp [hybridSearch, hc, if_neg hexp]

theorem filterMap_eq_map_of_forall {α β : Type} (l : List α) (F : α → Option β)
    (g : α → β) (h : ∀ p ∈ l, F p = some (g p)) : l.filterMap F = l.map g := by
  induction l with
  | nil => simp
  | cons x xs ih =>
    rw [List.filterMap_cons, h x (List.mem_cons_self _ _), List.map_cons]
    rw [ih (fun p hp => h p (List.mem_cons.mpr (Or.inr hp)))]

theorem lookup_of_mem_nodup {β : Type} (d : List (String × β))
    (p : String × β) (hnd : (d.map Prod.fst).Nodup) (hp : p ∈ d) :
    d.lookup p.1 = some p.2 := by
  induction d with
  | nil => exact absurd hp (List.not_mem_nil p)
  | cons x xs ih =>
    rw [lookup_cons]
    rcases List.mem_cons.mp hp with h | h
    · rw [h]
      simp
    · have hx : p.1 ≠ x.1 := by
        intro he
        have : x.1 ∈ xs.map Prod.fst :=
          List.mem_map.mpr ⟨p, h, he⟩
        exact (List.nodup_cons.mp (by simpa using hnd)).1 this
      rw [if_neg hx]
      exact ih (List.nodup_cons.mp (by simpa using hnd)).2 h

theorem dictSet_keys_of_isSome {β : Type} (d : List (String × β)) (k : String)
    (v : β) (h : (d.lookup k).isSome) :
    (dictSet d k v).map Prod.fst = d.map Prod.fst := by
  unfold dictSet
  rw [if_pos h, List.map_map]
  refine List.map_congr_left ?_
  intro p _
  by_cases hp : p.1 = k
  · simp [hp]
  · simp [hp]

theorem dictSet_keys_of_none {β : Type} (d : List (String × β)) (k : String)
    (v : β) (h : d.lookup k = none) :
    (dictSet d k v).map Prod.fst = d.map Prod.fst ++ [k] := by
  unfold dictSet
  rw [h]
  simp

theorem faissSearch_no_pad (rows : List (List ℚ)) (qv : List ℚ) (k : ℕ)
    (hk : k ≤ rows.length) :
    faissSearch rows qv k =
      ((rows.enum.map fun p => (sqDist qv p.2, (p.1 : Int))).insertionSort
        distLe).take k := by
  unfold faissSearch
  have hlen : (((rows.enum.map fun p => (sqDist qv p.2, (p.1 : Int))).insertionSort
      distLe).take k).length = k := by
    rw [List.length_take]
    rw [(List.perm_insertionSort distLe _).length_eq]
    rw [List.length_map, List.enum_length]
    omega
  simp only
  rw [hlen]
  simp

theorem pyGet_ofNat {α : Type} (l : List α) (j : ℕ) (hj : j < l.length)
    (dflt : α) : pyGet l (j : Int) = some (l.getD j dflt) := by
  simp only [pyGet]
  have h0 : ¬((j : Int) < 0) := by omega
  rw [if_neg h0, if_pos (by omega : (0 : Int) ≤ (j : Int))]
  rw [Int.toNat_natCast]
  rw [List.get?_eq_get hj, List.getD_eq_get l dflt hj]

theorem faissSearch_snd_facts (rows : List (List ℚ)) (qv : List ℚ) (k : ℕ)
    (hk : k ≤ rows.length) :
    (∀ p ∈ faissSearch rows qv k, ∃ j : ℕ, j < rows.length ∧ p.2 = (j : Int)) ∧
    ((faissSearch rows qv k).map Prod.snd).Nodup := by
  rw [faissSearch_no_pad rows qv k hk]
  constructor
  · intro p hp
    have h1 : p ∈ (rows.enum.map fun p => (sqDist qv p.2, (p.1 : Int))) :=
      (List.perm_insertionSort distLe _).subset
        ((List.take_sublist k _).subset hp)
    obtain ⟨e, he, hpe⟩ := List.mem_map.mp h1
    refine ⟨e.1, ?_, by rw [← hpe]⟩
    have hg := List.mem_enum_iff_getElem?.mp he
    have := List.getElem?_eq_some.mp hg
    exact this.1
  · rw [List.map_take]
    refine List.Nodup.sublist (List.take_sublist k _) ?_
    refine (((List.perm_insertionSort distLe _).map Prod.snd).nodup_iff).mpr ?_
    rw [List.map_map]
    rw [show (Prod.snd ∘ fun p : ℕ × List ℚ => (sqDist qv p.2, (p.1 : Int))) =
      (fun n : ℕ => (n : Int)) ∘ Prod.fst from rfl]
    rw [← List.map_map, List.enum_map_fst]
    exact List.Nodup.map (fun a b h => by exact_mod_cast h) (List.nodup_range _)

theorem semanticSearch_results_eq (f : String → List ℚ) (st : Searcher)
    (q : String) (k : ℕ) (rows : List (List ℚ)) (hrow : st.index = some rows)
    (hrl : rows.length = st.documents.length)
    (hml : st.document_metadata.length = st.documents.length)
    (hk : k ≤ st.documents.length) :
    (semanticSearch f st q k).1 =
      (faissSearch rows (getEmbedding f st.lru q).1 k).map
        (fun p => SemResult.mk (st.documents.getD p.2.toNat "")
          (1 / (1 + p.1)) (st.document_metadata.getD p.2.toNat [])) := by
  unfold semanticSearch
  rw [hrow]
  simp only
  apply filterMap_eq_map_of_forall
  intro p hp
  obtain ⟨j, hj, hpj⟩ :=
    (faissSearch_snd_facts rows _ k (by omega)).1 p hp
  rw [hpj]
  rw [if_pos (by exact_mod_cast (by omega : j < st.documents.length))]
  rw [pyGet_ofNat st.documents j (by omega) "",
    pyGet_ofNat st.document_metadata j (by omega) []]
  rw [Int.toNat_natCast]

theorem semanticSearch_contents_nodup (f : String → List ℚ) (st : Searcher)
    (q : String) (k : ℕ) (hnd : st.documents.Nodup)
    (hidx : st.index = none ∨ ∃ rows, st.index = some rows ∧
      rows.length = st.documents.length ∧
      st.document_metadata.length = st.documents.length ∧
      k ≤ st.documents.length) :
    ((semanticSearch f st q k).1.map SemResult.content).Nodup := by
  rcases hidx with h | ⟨rows, hrow, hrl, hml, hk⟩
  · unfold semanticSearch
    rw [h]
    simp
  · rw [semanticSearch_results_eq f st q k rows hrow hrl hml hk]
    rw [List.map_map]
    rw [show (SemResult.content ∘ fun p : ℚ × Int =>
        SemResult.mk (st.documents.getD p.2.toNat "") (1 / (1 + p.1))
          (st.document_metadata.getD p.2.toNat [])) =
      (fun i : Int => st.documents.getD i.toNat "") ∘ Prod.snd from rfl]
    rw [← List.map_map]
    obtain ⟨hvals, hsnd⟩ :=
      faissSearch_snd_facts rows (getEmbedding f st.lru q).1 k (by omega)
    refine List.Nodup.map_on ?_ hsnd
    intro x hx y hy hxy
    obtain ⟨px, hpx, hpx2⟩ := List.mem_map.mp hx
    obtain ⟨py, hpy, hpy2⟩ := List.mem_map.mp hy
    obtain ⟨jx, hjx, hjx2⟩ := hvals px hpx
    obtain ⟨jy, hjy, hjy2⟩ := hvals py hpy
    rw [← hpx2, ← hpy2, hjx2, hjy2] at hxy ⊢
    rw [Int.toNat_natCast, Int.toNat_natCast] at hxy
    have hjxd : jx < st.documents.length := by omega
    have hjyd : jy < st.documents.length := by omega
    rw [List.getD_eq_get st.documents "" hjxd,
      List.getD_eq_get st.documents "" hjyd] at hxy
    have := (List.Nodup.get_inj_iff hnd).mp hxy
    have hj : jx = jy := by
      have := congrArg Fin.val this
      simpa using this
    rw [hj]

theorem lexicalSearch_contents_nodup (md : List Metadata) (q : String)
    (docs : List String) (k : ℕ) (hnd : docs.Nodup) :
    ((lexicalSearch md q docs k).map LexResult.content).Nodup := by
  have hmem : ∀ r ∈ lexicalSearch md q docs k,
      r ∈ docs.enum.filterMap (lexEntry md (tokenize q).toFinset) := by
    intro r hr
    unfold lexicalSearch at hr
    exact (List.perm_insertionSort lexLe _).subset
      ((List.take_sublist k _).subset hr)
  have hidxnd : ((lexicalSearch md q docs k).map fun r => r.idx).Nodup := by
    have h1 : ((docs.enum.filterMap (lexEntry md (tokenize q).toFinset)).map
        fun r => r.idx).Nodup :=
      List.Nodup.sublist (lexEntry_filterMap_idx_sublist md _ docs.enum)
        (by rw [List.enum_map_fst]; exact List.nodup_range _)
    have h2 : (((docs.enum.filterMap
        (lexEntry md (tokenize q).toFinset)).insertionSort lexLe).map
        fun r => r.idx).Nodup :=
      ((List.perm_insertionSort lexLe _).map _).nodup_iff.mpr h1
    unfold lexicalSearch
    rw [List.map_take]
    exact List.Nodup.sublist (List.take_sublist k _) h2
  have hinj := List.inj_on_of_nodup_map hidxnd
  refine List.Nodup.map_on ?_ (List.Nodup.of_map _ hidxnd)
  intro x hx y hy hc
  have hx1 := (lexEntries_props md _ docs x (hmem x hx)).1
  have hy1 := (lexEntries_props md _ docs y (hmem y hy)).1
  rw [hc] at hx1
  have hxy : docs.get? x.idx = docs.get? y.idx := by rw [hx1, hy1]
  have hxlt : x.idx < docs.length := (List.get?_eq_some.mp hx1).1
  exact hinj hx hy (List.get?_inj hxlt hnd hxy)

theorem lookup_enumFrom_map (sem : List SemResult) (n : ℕ) (c : String) :
    ((((List.enumFrom n sem).map fun p =>
      (p.2.content, (1 / ((p.1 : ℚ) + 60), p.2.metadata))).lookup c).map
        Prod.fst) =
      if c ∈ sem.map SemResult.content then
        some (1 / (((n + (sem.map SemResult.content).indexOf c : ℕ) : ℚ) + 60))
      else none := by
  induction sem generalizing n with
  | nil => simp
  | cons r rs ih =>
    rw [List.enumFrom_cons, List.map_cons, lookup_cons]
    by_cases hc : c = r.content
    · subst hc
      rw [if_pos rfl]
      rw [if_pos (by rw [List.map_cons]; exact List.mem_cons_self _ _)]
      rw [List.map_cons, List.indexOf_cons_self]
      simp
    · rw [if_neg hc]
      rw [ih (n + 1)]
      by_cases hm : c ∈ rs.map SemResult.content
      · rw [if_pos hm,
          if_pos (by rw [List.map_cons]; exact List.mem_cons.mpr (Or.inr hm))]
        rw [List.map_cons, List.indexOf_cons_ne _ (fun he => hc he.symm)]
        have hn : (n + 1) + (rs.map SemResult.content).indexOf c =
            n + ((rs.map SemResult.content).indexOf c).succ := by omega
        rw [hn]
      · rw [if_neg hm]
        rw [if_neg (by
          rw [List.map_cons]
          intro hmem
          rcases List.mem_cons.mp hmem with h | h
          · exact hc h
          · exact hm h)]

theorem rrfSemFold_gen (sem : List SemResult) (n : ℕ)
    (d0 : List (String × (ℚ × Metadata)))
    (hnd : (sem.map SemResult.content).Nodup)
    (hdisj : ∀ r ∈ sem, d0.lookup r.content = none) :
    (List.enumFrom n sem).foldl (fun d p =>
        dictSet d p.2.content (1 / ((p.1 : ℚ) + 60), p.2.metadata)) d0 =
      d0 ++ (List.enumFrom n sem).map (fun p =>
        (p.2.content, (1 / ((p.1 : ℚ) + 60), p.2.metadata))) := by
  induction sem generalizing n d0 with
  | nil => simp
  | cons r rs ih =>
    rw [List.enumFrom_cons, List.foldl_cons, List.map_cons]
    dsimp only
    have hfresh := hdisj r (List.mem_cons_self _ _)
    have hset : dictSet d0 r.content (1 / ((n : ℚ) + 60), r.metadata) =
        d0 ++ [(r.content, (1 / ((n : ℚ) + 60), r.metadata))] := by
      unfold dictSet
      rw [hfresh]
      simp
    rw [hset]
    have hhead : r.content ∉ rs.map SemResult.content := by
      rw [List.map_cons] at hnd
      exact (List.nodup_cons.mp hnd).1
    have htail : (rs.map SemResult.content).Nodup := by
      rw [List.map_cons] at hnd
      exact (List.nodup_cons.mp hnd).2
    have hdisj2 : ∀ r2 ∈ rs,
        (d0 ++ [(r.content, (1 / ((n : ℚ) + 60), r.metadata))]).lookup
          r2.content = none := by
      intro r2 h2
      rw [lookup_append]
      have hd0 : d0.lookup r2.content = none :=
        hdisj r2 (List.mem_cons.mpr (Or.inr h2))
      rw [hd0]
      simp only [Option.isSome_none, Bool.false_eq_true, if_false]
      rw [lookup_cons]
      rw [if_neg (by
        intro he
        have he2 : r2.content = r.content := he
        exact hhead (he2 ▸ List.mem_map.mpr ⟨r2, h2, rfl⟩))]
      rfl
    rw [ih (n + 1) _ htail hdisj2]
    rw [List.append_assoc]
    rfl

theorem rrfSemFold_eq (sem : List SemResult)
    (hnd : (sem.map SemResult.content).Nodup) :
    rrfSemFold sem = sem.enum.map (fun p =>
      (p.2.content, (1 / ((p.1 : ℚ) + 60), p.2.metadata))) := by
  have h := rrfSemFold_gen sem 0 [] hnd (fun r _ => rfl)
  unfold rrfSemFold
  rw [show sem.enum = List.enumFrom 0 sem from rfl]
  rw [h]
  rfl

theorem rrfSemFold_lookup (sem : List SemResult)
    (hnd : (sem.map SemResult.content).Nodup) (c : String) :
    ((rrfSemFold sem).lookup c).map Prod.fst =
      if c ∈ sem.map SemResult.content then
        some (1 / ((((sem.map SemResult.content).indexOf c : ℕ) : ℚ) + 60))
      else none := by
  rw [rrfSemFold_eq sem hnd]
  rw [show sem.enum = List.enumFrom 0 sem from rfl]
  rw [lookup_enumFrom_map]
  by_cases hm : c ∈ sem.map SemResult.content
  · rw [if_pos hm, if_pos hm]
    norm_num
  · rw [if_neg hm, if_neg hm]

theorem rrfSemFold_keys (sem : List SemResult)
    (hnd : (sem.map SemResult.content).Nodup) :
    (rrfSemFold sem).map Prod.fst = sem.map SemResult.content := by
  rw [rrfSemFold_eq sem hnd, List.map_map]
  rw [show sem.enum = List.enumFrom 0 sem from rfl]
  rw [show ((Prod.fst ∘ fun p : ℕ × SemResult =>
      (p.2.content, (1 / ((p.1 : ℚ) + 60), p.2.metadata)))) =
    (SemResult.content ∘ Prod.snd) from rfl]
  rw [← List.map_map, List.enumFrom_map_snd]

theorem rrfLexFold_gen (lex : List LexResult) (n : ℕ)
    (d : List (String × (ℚ × Metadata)))
    (hnd : (lex.map LexResult.content).Nodup)
    (hkeys : (d.map Prod.fst).Nodup) :
    (((List.enumFrom n lex).foldl (fun d p =>
        match d.lookup p.2.content with
        | some sm => dictSet d p.2.content (sm.1 + 1 / ((p.1 : ℚ) + 60), sm.2)
        | none => dictSet d p.2.content (1 / ((p.1 : ℚ) + 60), p.2.metadata))
      d).map Prod.fst).Nodup ∧
    ∀ c, ((((List.enumFrom n lex).foldl (fun d p =>
        match d.lookup p.2.content with
        | some sm => dictSet d p.2.content (sm.1 + 1 / ((p.1 : ℚ) + 60), sm.2)
        | none => dictSet d p.2.content (1 / ((p.1 : ℚ) + 60), p.2.metadata))
      d).lookup c).map Prod.fst) =
      if c ∈ lex.map LexResult.content then
        match (d.lookup c).map Prod.fst with
        | some s => some (s +
            1 / (((n + (lex.map LexResult.content).indexOf c : ℕ) : ℚ) + 60))
        | none =>
            some (1 / (((n + (lex.map LexResult.content).indexOf c : ℕ) : ℚ) + 60))
      else (d.lookup c).map Prod.fst := by
  induction lex generalizing n d with
  | nil => exact ⟨hkeys, fun c => by simp⟩
  | cons r rs ih =>
    rw [List.map_cons] at hnd
    have hhead : r.content ∉ rs.map LexResult.content :=
      (List.nodup_cons.mp hnd).1
    have htail : (rs.map LexResult.content).Nodup := (List.nodup_cons.mp hnd).2
    rw [List.enumFrom_cons, List.foldl_cons]
    dsimp only
    cases hdc : d.lookup r.content with
    | some sm =>
      have hkeys2 : ((dictSet d r.content
          (sm.1 + 1 / ((n : ℚ) + 60), sm.2)).map Prod.fst).Nodup := by
        rw [dictSet_keys_of_isSome _ _ _ (by rw [hdc]; rfl)]
        exact hkeys
      obtain ⟨ihk, ihl⟩ := ih (n + 1) _ htail hkeys2
      refine ⟨ihk, ?_⟩
      intro c
      rw [ihl c]
      by_cases hcr : c = r.content
      · subst hcr
        rw [if_neg hhead, if_pos (by
          rw [List.map_cons]
          exact List.mem_cons_self _ _)]
        rw [dictSet_lookup_self, hdc]
        rw [List.map_cons, List.indexOf_cons_self]
        norm_num
      · rw [dictSet_lookup_ne _ _ _ _ hcr]
        by_cases hm : c ∈ rs.map LexResult.content
        · rw [if_pos hm, if_pos (by
            rw [List.map_cons]
            exact List.mem_cons.mpr (Or.inr hm))]
          rw [List.map_cons, List.indexOf_cons_ne _ (fun he => hcr he.symm)]
          have hn : (n + 1) + (rs.map LexResult.content).indexOf c =
              n + ((rs.map LexResult.content).indexOf c).succ := by omega
          rw [hn]
        · rw [if_neg hm, if_neg (by
            rw [List.map_cons]
            intro hmem
            rcases List.mem_cons.mp hmem with h | h
            · exact hcr h
            · exact hm h)]
    | none =>
      have hnotkey : r.content ∉ d.map Prod.fst :=
        (lookup_eq_none_iff d r.content).mp hdc
      have hkeys2 : ((dictSet d r.content
          (1 / ((n : ℚ) + 60), r.metadata)).map Prod.fst).Nodup := by
        rw [dictSet_keys_of_none _ _ _ hdc]
        rw [List.nodup_append]
        exact ⟨hkeys, List.nodup_singleton _, by
          intro a ha hb
          rw [List.mem_singleton] at hb
          exact hnotkey (hb ▸ ha)⟩
      obtain ⟨ihk, ihl⟩ := ih (n + 1) _ htail hkeys2
      refine ⟨ihk, ?_⟩
      intro c
      rw [ihl c]
      by_cases hcr : c = r.content
      · subst hcr
        rw [if_neg hhead, if_pos (by
          rw [List.map_cons]
          exact List.mem_cons_self _ _)]
        rw [dictSet_lookup_self, hdc]
        rw [List.map_cons, List.indexOf_cons_self]
        norm_num
      · rw [dictSet_lookup_ne _ _ _ _ hcr]
        by_cases hm : c ∈ rs.map LexResult.content
        · rw [if_pos hm, if_pos (by
            rw [List.map_cons]
            exact List.mem_cons.mpr (Or.inr hm))]
          rw [List.map_cons, List.indexOf_cons_ne _ (fun he => hcr he.symm)]
          have hn : (n + 1) + (rs.map LexResult.content).indexOf c =
              n + ((rs.map LexResult.content).indexOf c).succ := by omega
          rw [hn]
        · rw [if_neg hm, if_neg (by
            rw [List.map_cons]
            intro hmem
            rcases List.mem_cons.mp hmem with h | h
            · exact hcr h
            · exact hm h)]

theorem hybridCompute_unfold (f : String → List ℚ) (st : Searcher) (q : String)
    (k : ℕ) :
    (hybridCompute f st q k).1 =
      (((rrfLexFold (rrfSemFold (semanticSearch f st q k).1)
        (lexicalSearch st.document_metadata q st.documents k)).map
        (fun p => FusedResult.mk p.1 p.2.1 p.2.2)).insertionSort
          fusedLe).take k := by
  unfold hybridCompute
  dsimp only
  rw [(semanticSearch_state f st q k).1, (semanticSearch_state f st q k).2]

/-- C1 (amended): on a result-cache miss, for a well-formed store (metadata
and index rows in lock-step with the documents) whose document texts are
pairwise distinct and with k not exceeding the number of stored documents
(so that FAISS produces no padding and each ranked list mentions each text
at most once), hybrid_search returns at most k results, sorted by fused
score descending, and every returned result's score is exactly the sum of
1/(rank + 60) over the ranked lists (semantic top-k at its semantic rank,
lexical top-k at its lexical rank) in which its text content appears — one
term per list containing it, zero contribution from a list that does not. -/
theorem hybridSearch_rrf_spec (f : String → List ℚ) (now : ℚ) (st : Searcher)
    (q : String) (k : ℕ) (semC lexC : List String)
    (hmiss : ∀ t res, st.cache.lookup (cacheKey q k) = some (t, res) →
      ¬(now - t < cacheTtl))
    (hnd : st.documents.Nodup)
    (hidx : st.index = none ∨ ∃ rows, st.index = some rows ∧
      rows.length = st.documents.length ∧
      st.document_metadata.length = st.documents.length ∧
      k ≤ st.documents.length)
    (hsem : semC = (semanticSearch f st q k).1.map SemResult.content)
    (hlex : lexC = (lexicalSearch st.document_metadata q st.documents k).map
      LexResult.content) :
    (hybridSearch f now st q k).1.length ≤ k ∧
    (hybridSearch f now st q k).1.Pairwise (fun a b => b.score ≤ a.score) ∧
    ∀ r ∈ (hybridSearch f now st q k).1,
      (r.content ∈ semC ∨ r.content ∈ lexC) ∧
      r.score =
        (if r.content ∈ semC then 1 / ((semC.indexOf r.content : ℚ) + 60)
          else 0) +
        (if r.content ∈ lexC then 1 / ((lexC.indexOf r.content : ℚ) + 60)
          else 0) := by
  subst hsem
  subst hlex
  rw [hybridSearch_miss_eq f now st q k hmiss]
  rw [hybridCompute_unfold f st q k]
  have hsndN : ((semanticSearch f st q k).1.map SemResult.content).Nodup :=
    semanticSearch_contents_nodup f st q k hnd hidx
  have hlexN : ((lexicalSearch st.document_metadata q st.documents k).map
      LexResult.content).Nodup :=
    lexicalSearch_contents_nodup st.document_metadata q st.documents k hnd
  have hdict := rrfLexFold_gen
    (lexicalSearch st.document_metadata q st.documents k) 0
    (rrfSemFold (semanticSearch f st q k).1) hlexN
    (by rw [rrfSemFold_keys _ hsndN]; exact hsndN)
  rw [show (List.enumFrom 0
      (lexicalSearch st.document_metadata q st.documents k)).foldl
      (fun d p =>
        match d.lookup p.2.content with
        | some sm => dictSet d p.2.content (sm.1 + 1 / ((p.1 : ℚ) + 60), sm.2)
        | none => dictSet d p.2.content (1 / ((p.1 : ℚ) + 60), p.2.metadata))
      (rrfSemFold (semanticSearch f st q k).1) =
    rrfLexFold (rrfSemFold (semanticSearch f st q k).1)
      (lexicalSearch st.document_metadata q st.documents k) from rfl] at hdict
  obtain ⟨hkeysN, hlook⟩ := hdict
  have hmemD : ∀ p ∈ rrfLexFold (rrfSemFold (semanticSearch f st q k).1)
      (lexicalSearch st.document_metadata q st.documents k),
      (p.1 ∈ (semanticSearch f st q k).1.map SemResult.content ∨
        p.1 ∈ (lexicalSearch st.document_metadata q st.documents k).map
          LexResult.content) ∧
      p.2.1 =
        (if p.1 ∈ (semanticSearch f st q k).1.map SemResult.content then
          1 / ((((semanticSearch f st q k).1.map SemResult.content).indexOf
            p.1 : ℚ) + 60) else 0) +
        (if p.1 ∈ (lexicalSearch st.document_metadata q st.documents k).map
            LexResult.content then
          1 / ((((lexicalSearch st.document_metadata q st.documents k).map
            LexResult.content).indexOf p.1 : ℚ) + 60) else 0) := by
    intro p hp
    have hl := lookup_of_mem_nodup _ p hkeysN hp
    have hc := hlook p.1
    rw [hl] at hc
    rw [rrfSemFold_lookup (semanticSearch f st q k).1 hsndN p.1] at hc
    by_cases hmL : p.1 ∈ (lexicalSearch st.document_metadata q st.documents
        k).map LexResult.content
    · rw [if_pos hmL] at hc
      by_cases hmS : p.1 ∈ (semanticSearch f st q k).1.map SemResult.content
      · rw [if_pos hmS] at hc
        simp only [Option.map_some'] at hc
        injection hc with hc
        refine ⟨Or.inl hmS, ?_⟩
        rw [if_pos hmS, if_pos hmL, hc]
        norm_num
      · rw [if_neg hmS] at hc
        simp only [Option.map_some'] at hc
        injection hc with hc
        refine ⟨Or.inr hmL, ?_⟩
        rw [if_neg hmS, if_pos hmL, hc]
        norm_num
    · rw [if_neg hmL] at hc
      by_cases hmS : p.1 ∈ (semanticSearch f st q k).1.map SemResult.content
      · rw [if_pos hmS] at hc
        simp only [Option.map_some'] at hc
        injection hc with hc
        refine ⟨Or.inl hmS, ?_⟩
        rw [if_pos hmS, if_neg hmL, hc]
        norm_num
      · rw [if_neg hmS] at hc
        simp only [Option.map_some'] at hc
        exact absurd hc (by simp)
  refine ⟨?_, ?_, ?_⟩
  · exact List.length_take_le k _
  · refine List.Pairwise.sublist (List.take_sublist k _) ?_
    exact List.sorted_insertionSort fusedLe _
  · intro r hr
    have hrD : r ∈ (rrfLexFold (rrfSemFold (semanticSearch f st q k).1)
        (lexicalSearch st.document_metadata q st.documents k)).map
        (fun p => FusedResult.mk p.1 p.2.1 p.2.2) :=
      (List.perm_insertionSort fusedLe _).subset
        ((List.take_sublist k _).subset hr)
    obtain ⟨p, hp, hpr⟩ := List.mem_map.mp hrD
    obtain ⟨hm, hs⟩ := hmemD p hp
    rw [← hpr]
    exact ⟨hm, hs⟩

/-- C1 counterexample: with two stored documents having byte-identical text
(store ["a", "a"], query "a", k = 2, cold cache), hybrid_search returns one
fused entry for "a" whose score is 1/61 + 1/60 + 1/61: the semantic loop's
plain dict assignment overwrites the rank-0 contribution with the rank-1
one, and the lexical loop then accumulates a term for each of the two
lexical occurrences.  The claimed formula — one term 1/(rank+60) per ranked
list containing the text — yields at most 1/60 + 1/60 for any choice of
ranks, strictly less than the computed score, so the claim as stated fails
on this store state. -/
theorem hybridSearch_rrf_duplicate_concrete :
    (hybridSearch (fun _ => ([] : List ℚ)) 0
      { index := some [[], []], documents := ["a", "a"],
        document_metadata := [[], []], cache := [], lru := [] } "a" 2).1.map
        (fun r => (r.content, r.score)) =
      [("a", (1 / (((1 : ℕ) : ℚ) + 60) + 1 / (((0 : ℕ) : ℚ) + 60)) +
        1 / (((1 : ℕ) : ℚ) + 60))] ∧
    (1 : ℚ) / 60 + 1 / 60 <
      (1 / (((1 : ℕ) : ℚ) + 60) + 1 / (((0 : ℕ) : ℚ) + 60)) +
        1 / (((1 : ℕ) : ℚ) + 60) := by
  constructor
  · rfl
  · norm_num

/-- Witness for the RRF fusion specification at a concrete one-document
store with a cold cache. -/
theorem hybridSearch_rrf_spec_witness :
    (hybridSearch (fun _ => ([] : List ℚ)) 0
      { index := some [[]], documents := ["a"], document_metadata := [[]],
        cache := [], lru := [] } "a" 1).1.length ≤ 1 ∧
    (hybridSearch (fun _ => ([] : List ℚ)) 0
      { index := some [[]], documents := ["a"], document_metadata := [[]],
        cache := [], lru := [] } "a" 1).1.Pairwise
      (fun a b => b.score ≤ a.score) ∧
    ∀ r ∈ (hybridSearch (fun _ => ([] : List ℚ)) 0
      { index := some [[]], documents := ["a"], document_metadata := [[]],
        cache := [], lru := [] } "a" 1).1,
      (r.content ∈ ["a"] ∨ r.content ∈ ["a"]) ∧
      r.score =
        (if r.content ∈ ["a"] then
          1 / (((["a"] : List String).indexOf r.content : ℚ) + 60) else 0) +
        (if r.content ∈ ["a"] then
          1 / (((["a"] : List String).indexOf r.content : ℚ) + 60) else 0) :=
  hybridSearch_rrf_spec (fun _ => ([] : List ℚ)) 0
    { index := some [[]], documents := ["a"], document_metadata := [[]],
      cache := [], lru := [] } "a" 1 ["a"] ["a"]
    (fun t res h => Option.noConfusion h)
    (by decide)
    (Or.inr ⟨[[]], rfl, rfl, rfl, by decide⟩)
    (by decide)
    (by decide)
